import Mathlib

/-!
# Verification of the adaptive proximity clustering filter (`filter_cluster_v6.0.py`)

This file gives a shallow embedding, in Lean 4, of the algorithmic core of the
repository `SV-pipeline`, namely `src/Deepvarient-filter/filter_cluster_v6.0.py`:

* the threshold calculator `calculate_dist_threshold` (source lines 155-160),
  with Python floats modelled as real numbers and Python `int(float)`
  (truncation toward zero) modelled by `pyTrunc`;
* the chromosome-length merge `get_combined_chrom_lengths` (source lines 81-92),
  with Python dicts modelled as association lists in insertion order;
* the streaming cluster filter engine of `process_vcf` (source lines 186-245):
  the per-line parsing (`parseDataLine`, source lines 196-201, including the
  fact that only `ValueError` is caught), the per-record buffer walk
  (`scanPrev` / `stepRow`, source lines 204-235), the end-of-stream flush
  (`flushAll`, source lines 238-243), and the line-level driver
  (`runLines` / `process_vcf`, source lines 190-243).

Theorems at the end settle the behavioural claims about this program.
-/

/-! ## Data model

A parsed data record.  In the source, a record is the Python dict
`{'line': line, 'chrom': chrom, 'pos': pos, 'keep': True}` (line 206); `Row`
is a record before the `keep` flag is attached, `Variant` is the buffered
form carrying the mutable `keep` flag. -/

structure Row where
  line : String
  chrom : String
  pos : Int
deriving DecidableEq, Repr

structure Variant where
  line : String
  chrom : String
  pos : Int
  keep : Bool
deriving DecidableEq, Repr

/-- The row data of a buffered record (what gets printed / counted). -/
def Variant.toRow (v : Variant) : Row := ⟨v.line, v.chrom, v.pos⟩

/-- Configuration reaching the filtering pass of `process_vcf`: the target
("SDR") chromosome name and the two integer distance thresholds computed in
step 2 of `process_vcf` (source lines 172-173). -/
structure Params where
  sdr_chrom : String
  thresh_sdr : Int
  thresh_other : Int
deriving DecidableEq, Repr

/-- `current_thresh = thresh_sdr if chrom == args.sdr_chrom else thresh_other`
(source line 204). -/
def threshFor (p : Params) (chrom : String) : Int :=
  if chrom = p.sdr_chrom then p.thresh_sdr else p.thresh_other

/-- Mutable state of the filtering pass (source lines 186-188): the pending
buffer, the two counters, and the stream of emitted data records.  The source
prints the raw line of each emitted record; `output` records those emissions
(as parsed rows, so that the printed stream is `output.map Row.line`). -/
structure FState where
  buffer : List Variant
  kept_count : Nat
  removed_count : Nat
  output : List Row
deriving DecidableEq, Repr

/-- `buffer = []; kept_count = 0; removed_count = 0` (source lines 186-188). -/
def initState : FState := ⟨[], 0, 0, []⟩

/-- Accumulator of the `for prev_var in buffer` walk (source lines 209-232):
the `new_buffer` being rebuilt, the counters, the emitted records, and the
`keep` flag of `current_var` (which the loop may flip to `False`). -/
structure LoopAcc where
  new_buffer : List Variant
  kept_count : Nat
  removed_count : Nat
  output : List Row
  curKeep : Bool
deriving DecidableEq, Repr

/-- Body of the buffer walk (source lines 209-232), for an incoming record on
chromosome `chrom` at position `pos` with active threshold `current_thresh`:

* `prev_var['chrom'] != chrom` (line 210): flush `prev_var` — emit its line if
  `prev_var['keep']`, else count it as removed — and drop it;
* same chromosome, `dist = pos - prev_var['pos']` (line 219):
  `dist > current_thresh` (line 221): flush `prev_var` the same way;
* otherwise (line 228): conflict — set `prev_var['keep'] = False` and
  `current_var['keep'] = False`, and retain `prev_var` in `new_buffer`. -/
def scanPrev (chrom : String) (pos : Int) (current_thresh : Int)
    (acc : LoopAcc) (prev : Variant) : LoopAcc :=
  if prev.chrom ≠ chrom then
    if prev.keep then
      { acc with output := acc.output ++ [prev.toRow], kept_count := acc.kept_count + 1 }
    else
      { acc with removed_count := acc.removed_count + 1 }
  else
    if pos - prev.pos > current_thresh then
      if prev.keep then
        { acc with output := acc.output ++ [prev.toRow], kept_count := acc.kept_count + 1 }
      else
        { acc with removed_count := acc.removed_count + 1 }
    else
      { acc with new_buffer := acc.new_buffer ++ [{ prev with keep := false }],
                 curKeep := false }

/-- Processing of one parsed data record (source lines 204-235): choose the
active threshold, walk the buffer rebuilding `new_buffer`, then append
`current_var` (with its possibly-flipped `keep` flag) and replace the buffer. -/
def stepRow (p : Params) (st : FState) (r : Row) : FState :=
  let current_thresh := threshFor p r.chrom
  let acc := st.buffer.foldl (scanPrev r.chrom r.pos current_thresh)
    ⟨[], st.kept_count, st.removed_count, st.output, true⟩
  ⟨acc.new_buffer ++ [⟨r.line, r.chrom, r.pos, acc.curKeep⟩],
   acc.kept_count, acc.removed_count, acc.output⟩

/-- The emit-or-count rule applied to one record of the final flush
(source lines 239-243). -/
def flushStep (s : FState) (v : Variant) : FState :=
  if v.keep then
    { s with output := s.output ++ [v.toRow], kept_count := s.kept_count + 1 }
  else
    { s with removed_count := s.removed_count + 1 }

/-- End-of-stream flush (source lines 238-243): every remaining buffered
record is emitted if its `keep` flag is set, otherwise counted as removed;
the buffer is fully drained. -/
def flushAll (st : FState) : FState :=
  st.buffer.foldl flushStep ⟨[], st.kept_count, st.removed_count, st.output⟩

/-- The filtering pass over a stream of already-parsed data records. -/
def runLoop (p : Params) (st : FState) (rows : List Row) : FState :=
  rows.foldl (stepRow p) st

/-- The record-level Cluster Filter Engine: stream all records, then flush. -/
def processRows (p : Params) (rows : List Row) : FState :=
  flushAll (runLoop p initState rows)

/-! ## Line-level parsing

The filtering pass reads raw lines (source lines 191-201).  A data line is
split on tabs; `chrom = fields[0]`, `pos = int(fields[1])`, and only
`ValueError` is caught — if the line has fewer than two tab-separated fields,
`fields[1]` raises an uncaught `IndexError`. -/

/-- The uncaught Python exception of the filtering pass. -/
inductive PyErr where
  | indexError
deriving DecidableEq, Repr

/-- Python `line.startswith("#")`: the first character is `#`. -/
def startsWithHash (line : String) : Bool :=
  match line.toList with
  | '#' :: _ => true
  | _ => false

/-- Python `line.split('\t')`: split on every tab, greedy, keeping empty
fields (`''.split('\t') == ['']`). -/
def splitTab : List Char → List (List Char)
  | [] => [[]]
  | c :: rest =>
      if c = '\t' then [] :: splitTab rest
      else
        match splitTab rest with
        | [] => [[c]]
        | f :: fs => (c :: f) :: fs

/-- Whitespace stripping of Python `int(s)` (`s.strip()` semantics on the
ends of the string). -/
def pyTrim (cs : List Char) : List Char :=
  ((cs.dropWhile Char.isWhitespace).reverse.dropWhile Char.isWhitespace).reverse

/-- Digit string accumulation for `pyIntChars`; models Python's
integer-literal digit part `digit (["_"] digit)*` (a single underscore is
allowed between two digits). -/
def pyDigitsAux : Nat → List Char → Option Nat
  | acc, [] => some acc
  | acc, '_' :: c :: rest =>
      if c.isDigit then pyDigitsAux (acc * 10 + (c.toNat - 48)) rest else none
  | acc, c :: rest =>
      if c.isDigit then pyDigitsAux (acc * 10 + (c.toNat - 48)) rest else none

/-- Models Python `int(s)` on a field: surrounding whitespace is stripped, an
optional single `+`/`-` sign is allowed, then a nonempty digit sequence
(underscores permitted between digits).  Returns `none` where Python raises
`ValueError`. -/
def pyIntChars (cs : List Char) : Option Int :=
  let core : Int × List Char :=
    match pyTrim cs with
    | '+' :: rest => (1, rest)
    | '-' :: rest => (-1, rest)
    | l => (1, l)
  match core.2 with
  | [] => none
  | c :: rest =>
      if c.isDigit then
        (pyDigitsAux (c.toNat - 48) rest).map (fun n => core.1 * (n : Int))
      else none

/-- Python `int(s)` on a whole string. -/
def pyInt (s : String) : Option Int := pyIntChars s.toList

/-- Parsing of one data line in the filtering pass (source lines 196-201):

    fields = line.split('\t')
    try:
        chrom = fields[0]
        pos = int(fields[1])
    except ValueError:
        continue

`.ok none` is the caught `ValueError` (record skipped); `.error .indexError`
is the uncaught `IndexError` raised by `fields[1]` when the line has fewer
than two tab-separated fields. -/
def parseDataLine (line : String) : Except PyErr (Option Row) :=
  match splitTab line.toList with
  | [] => .error .indexError
  | [_] => .error .indexError
  | c :: positionField :: _ =>
      match pyIntChars positionField with
      | some n => .ok (some ⟨line, String.mk c, n⟩)
      | none => .ok none

/-- The line loop of the filtering pass (source lines 191-235): header lines
(`line.startswith("#")`) are printed verbatim and the state is untouched;
data lines are parsed and processed; an uncaught exception aborts the run. -/
def runLines (p : Params) (st : FState) : List String → Except PyErr FState
  | [] => .ok st
  | l :: ls =>
    if startsWithHash l then runLines p st ls
    else
      match parseDataLine l with
      | .error e => .error e
      | .ok none => runLines p st ls
      | .ok (some r) => runLines p (stepRow p st r) ls

/-- The whole filtering pass of `process_vcf` (source lines 186-243), from the
already-computed thresholds: the line loop followed by the final flush. -/
def process_vcf (p : Params) (lines : List String) : Except PyErr FState :=
  (runLines p initState lines).map flushAll

/-- The data records that the filtering pass successfully parses out of a
line stream (header lines and `ValueError` lines contribute nothing). -/
def parsedRows (lines : List String) : List Row :=
  lines.filterMap fun l =>
    if startsWithHash l then none
    else
      match parseDataLine l with
      | .ok (some r) => some r
      | _ => none

/-! ## Order relations used in the claims -/

/-- Records arrive in non-decreasing position order within each chromosome
(the sortedness precondition the program assumes). -/
def sortRel (a b : Row) : Prop := a.chrom = b.chrom → a.pos ≤ b.pos

/-- `b` is safely far from the earlier record `a`: if they share a
chromosome, their distance strictly exceeds the threshold active for `b`. -/
def farRel (p : Params) (a b : Row) : Prop :=
  a.chrom = b.chrom → threshFor p b.chrom < b.pos - a.pos

instance : DecidableRel sortRel := fun a b => by
  unfold sortRel; infer_instance

instance (p : Params) : DecidableRel (farRel p) := fun a b => by
  unfold farRel; infer_instance

/-- `groupedFrom cur finished cs = true` iff the chromosome name stream `cs`
continues the block of `cur` and never revisits a chromosome of `finished`
(nor, after leaving it, `cur`): each chromosome's records form one contiguous
block. -/
def groupedFrom (cur : String) (finished : List String) : List String → Bool
  | [] => true
  | c :: rest =>
      if c = cur then groupedFrom cur finished rest
      else if c ∈ finished then false
      else groupedFrom c (cur :: finished) rest

/-- Each chromosome's records form one contiguous block of the stream. -/
def grouped : List String → Bool
  | [] => true
  | c :: rest => groupedFrom c [] rest

/-! ## Threshold calculator (source lines 155-160)

Python floats are modelled as real numbers; Python `int(x)` on a float is
truncation toward zero. -/

/-- Python `int(x)` for a float `x`: truncation toward zero. -/
noncomputable def pyTrunc (x : ℝ) : ℤ := if 0 ≤ x then ⌊x⌋ else ⌈x⌉

/-- `calculate_dist_threshold(het, p_value, min_threshold)` (source lines
155-160):

    if het <= 1e-9:
        return min_threshold
    calc_thresh = int(-math.log(1 - p_value) / het)
    return max(calc_thresh, min_threshold)
-/
noncomputable def calculate_dist_threshold (het p_value : ℝ) (min_threshold : ℤ) : ℤ :=
  if het ≤ 1e-9 then min_threshold
  else max (pyTrunc (-Real.log (1 - p_value) / het)) min_threshold

/-- The Threshold Calculator as the spec words it (for the refinement claim):
return `min_threshold` directly when the density is at or below the epsilon,
and `max(floor(-ln(1-p)/d), m)` otherwise. -/
noncomputable def threshold_spec (d p : ℝ) (m : ℤ) : ℤ :=
  if d ≤ 1e-9 then m
  else max ⌊-Real.log (1 - p) / d⌋ m

/-! ## Chromosome length table merge (source lines 81-92)

Python dicts are modelled as association lists in insertion order: lookup
finds the first (unique, for a genuine dict) binding; assigning a missing key
appends. -/

/-- Python `k in d` for the length dicts. -/
def dictContains (d : List (String × Int)) (k : String) : Bool :=
  match d with
  | [] => false
  | kv :: rest => kv.1 = k || dictContains rest k

/-- Python `d.get(k)` / `d[k]` for the length dicts. -/
def dictGet? (d : List (String × Int)) (k : String) : Option Int :=
  match d with
  | [] => none
  | kv :: rest => if kv.1 = k then some kv.2 else dictGet? rest k

/-- `get_combined_chrom_lengths` (source lines 81-92), from the two already
extracted length tables (reading the FAI file and the VCF header is I/O,
specified at its interface): start from the FAI table and add each VCF-header
entry whose chromosome is absent —

    for chrom, length in vcf_chrom_lens.items():
        if chrom not in chrom_lens:
            chrom_lens[chrom] = length
-/
def get_combined_chrom_lengths (fai vcfHdr : List (String × Int)) : List (String × Int) :=
  vcfHdr.foldl (fun d kv => if dictContains d kv.1 then d else d ++ [kv]) fai

/-! ## Basic lemmas about the buffer walk -/

theorem scanPrev_mismatch {chrom : String} {pos th : Int} {acc : LoopAcc} {w : Variant}
    (h : w.chrom ≠ chrom) :
    scanPrev chrom pos th acc w =
      if w.keep then
        { acc with output := acc.output ++ [w.toRow], kept_count := acc.kept_count + 1 }
      else { acc with removed_count := acc.removed_count + 1 } := by
  simp [scanPrev, h]

theorem scanPrev_safe {chrom : String} {pos th : Int} {acc : LoopAcc} {w : Variant}
    (h1 : w.chrom = chrom) (h2 : th < pos - w.pos) :
    scanPrev chrom pos th acc w =
      if w.keep then
        { acc with output := acc.output ++ [w.toRow], kept_count := acc.kept_count + 1 }
      else { acc with removed_count := acc.removed_count + 1 } := by
  simp [scanPrev, h1, h2]

theorem scanPrev_conflict {chrom : String} {pos th : Int} {acc : LoopAcc} {w : Variant}
    (h1 : w.chrom = chrom) (h2 : ¬ th < pos - w.pos) :
    scanPrev chrom pos th acc w =
      { acc with new_buffer := acc.new_buffer ++ [{ w with keep := false }],
                 curKeep := false } := by
  simp [scanPrev, h1, h2]

/-- Walking any all-discarded (`keep = false`) buffer segment never emits and
never touches the kept counter; whatever it retains is a keep-false copy of a
conflicting (same chromosome, within threshold) member of the segment, and
the `current` keep flag is untouched when nothing is retained. -/
theorem foldl_scanPrev_false (chrom : String) (pos th : Int) :
    ∀ (bs : List Variant) (acc : LoopAcc), (∀ w ∈ bs, w.keep = false) →
    ∃ nb rm b,
      bs.foldl (scanPrev chrom pos th) acc =
        ⟨acc.new_buffer ++ nb, acc.kept_count, acc.removed_count + rm, acc.output, b⟩ ∧
      (∀ w ∈ nb, ∃ w0, w0 ∈ bs ∧ w = { w0 with keep := false } ∧
          w0.chrom = chrom ∧ ¬ th < pos - w0.pos) ∧
      (nb = [] → b = acc.curKeep) := by
  intro bs
  induction bs with
  | nil =>
    intro acc _
    exact ⟨[], 0, acc.curKeep, by simp, by simp, fun _ => rfl⟩
  | cons w bs ih =>
    intro acc h
    have hw : w.keep = false := h w (List.mem_cons_self ..)
    have hrest : ∀ x ∈ bs, x.keep = false := fun x hx => h x (List.mem_cons_of_mem _ hx)
    rw [List.foldl_cons]
    by_cases hc : w.chrom = chrom
    · by_cases hs : th < pos - w.pos
      · -- safe flush of a discarded record: removed_count += 1
        have hstep : scanPrev chrom pos th acc w =
            { acc with removed_count := acc.removed_count + 1 } := by
          rw [scanPrev_safe hc hs]; simp [hw]
        rw [hstep]
        obtain ⟨nb, rm, b, heq, hmem, hnil⟩ :=
          ih { acc with removed_count := acc.removed_count + 1 } hrest
        refine ⟨nb, 1 + rm, b, ?_, ?_, hnil⟩
        · rw [heq, Nat.add_assoc]
        · intro x hx
          obtain ⟨w0, hw0, hrest'⟩ := hmem x hx
          exact ⟨w0, List.mem_cons_of_mem _ hw0, hrest'⟩
      · -- conflict: retained with keep := false
        rw [scanPrev_conflict hc hs]
        obtain ⟨nb, rm, b, heq, hmem, _⟩ :=
          ih { acc with new_buffer := acc.new_buffer ++ [{ w with keep := false }],
                        curKeep := false } hrest
        refine ⟨{ w with keep := false } :: nb, rm, b, ?_, ?_, by simp⟩
        · rw [heq, List.append_assoc]
          rfl
        · intro x hx
          rcases List.mem_cons.mp hx with hx | hx
          · exact ⟨w, List.mem_cons_self .., hx, hc, hs⟩
          · obtain ⟨w0, hw0, hrest'⟩ := hmem x hx
            exact ⟨w0, List.mem_cons_of_mem _ hw0, hrest'⟩
    · -- chromosome mismatch flush of a discarded record: removed_count += 1
      have hstep : scanPrev chrom pos th acc w =
          { acc with removed_count := acc.removed_count + 1 } := by
        rw [scanPrev_mismatch hc]; simp [hw]
      rw [hstep]
      obtain ⟨nb, rm, b, heq, hmem, hnil⟩ :=
        ih { acc with removed_count := acc.removed_count + 1 } hrest
      refine ⟨nb, 1 + rm, b, ?_, ?_, hnil⟩
      · rw [heq, Nat.add_assoc]
      · intro x hx
        obtain ⟨w0, hw0, hrest'⟩ := hmem x hx
        exact ⟨w0, List.mem_cons_of_mem _ hw0, hrest'⟩

/-- Flushing any all-discarded buffer segment only increments the removed
counter. -/
theorem foldl_flushStep_false :
    ∀ (bs : List Variant) (s : FState), (∀ w ∈ bs, w.keep = false) →
    bs.foldl flushStep s = { s with removed_count := s.removed_count + bs.length } := by
  intro bs
  induction bs with
  | nil => intro s _; simp
  | cons w bs ih =>
    intro s h
    have hw : w.keep = false := h w (List.mem_cons_self ..)
    have hrest : ∀ x ∈ bs, x.keep = false := fun x hx => h x (List.mem_cons_of_mem _ hx)
    rw [List.foldl_cons]
    have hstep : flushStep s w = { s with removed_count := s.removed_count + 1 } := by
      simp [flushStep, hw]
    rw [hstep, ih { s with removed_count := s.removed_count + 1 } hrest]
    simp only [List.length_cons]
    congr 1
    omega

/-- The final flush of a buffer whose non-final entries are all discarded
(the shape the engine maintains): the removed counter absorbs the prefix and
only the last record can be emitted. -/
theorem flushAll_shape (bs : List Variant) (v : Variant) (k rm : Nat) (out : List Row)
    (h : ∀ w ∈ bs, w.keep = false) :
    flushAll ⟨bs ++ [v], k, rm, out⟩ =
      ⟨[], k + (if v.keep then 1 else 0),
          rm + bs.length + (if v.keep then 0 else 1),
          out ++ if v.keep then [v.toRow] else []⟩ := by
  unfold flushAll
  rw [List.foldl_append, foldl_flushStep_false bs _ h]
  by_cases hk : v.keep <;> simp [flushStep, hk]

/-- The buffer walk leaves the kept/removed/buffer tally invariant: each
buffer entry is either flushed (one count) or retained (one buffer slot). -/
theorem foldl_scanPrev_measure (chrom : String) (pos th : Int) :
    ∀ (bs : List Variant) (acc : LoopAcc),
    (bs.foldl (scanPrev chrom pos th) acc).new_buffer.length +
      (bs.foldl (scanPrev chrom pos th) acc).kept_count +
      (bs.foldl (scanPrev chrom pos th) acc).removed_count =
    acc.new_buffer.length + acc.kept_count + acc.removed_count + bs.length := by
  intro bs
  induction bs with
  | nil => intro acc; simp
  | cons w bs ih =>
    intro acc
    rw [List.foldl_cons, ih]
    unfold scanPrev
    by_cases hc : w.chrom ≠ chrom
    · by_cases hk : w.keep <;> simp [hc, hk] <;> omega
    · by_cases hs : pos - w.pos > th
      · by_cases hk : w.keep <;> simp [hc, hs, hk] <;> omega
      · simp [hc, hs] <;> omega

/-- Processing one record grows kept + removed + pending by exactly one. -/
theorem stepRow_measure (p : Params) (st : FState) (r : Row) :
    (stepRow p st r).kept_count + (stepRow p st r).removed_count +
      (stepRow p st r).buffer.length =
    st.kept_count + st.removed_count + st.buffer.length + 1 := by
  unfold stepRow
  have h := foldl_scanPrev_measure r.chrom r.pos (threshFor p r.chrom) st.buffer
    ⟨[], st.kept_count, st.removed_count, st.output, true⟩
  simp at h ⊢
  omega

/-- The final flush converts every pending slot into a count. -/
theorem flushAll_measure (st : FState) :
    (flushAll st).kept_count + (flushAll st).removed_count =
      st.kept_count + st.removed_count + st.buffer.length ∧
    (flushAll st).buffer = [] := by
  unfold flushAll
  have main : ∀ (bs : List Variant) (s : FState),
      (bs.foldl flushStep s).kept_count + (bs.foldl flushStep s).removed_count =
        s.kept_count + s.removed_count + bs.length ∧
      (bs.foldl flushStep s).buffer = s.buffer := by
    intro bs
    induction bs with
    | nil => intro s; simp
    | cons w bs ih =>
      intro s
      rw [List.foldl_cons]
      obtain ⟨h1, h2⟩ := ih (flushStep s w)
      refine ⟨?_, ?_⟩
      · rw [h1]
        by_cases hk : w.keep <;> simp [flushStep, hk] <;> omega
      · rw [h2]
        by_cases hk : w.keep <;> simp [flushStep, hk]
  have h := main st.buffer ⟨[], st.kept_count, st.removed_count, st.output⟩
  simpa using h

/-- The buffer walk only ever adds `keep = false` records to `new_buffer`. -/
theorem foldl_scanPrev_newbuffer_false (chrom : String) (pos th : Int) :
    ∀ (bs : List Variant) (acc : LoopAcc), (∀ w ∈ acc.new_buffer, w.keep = false) →
    ∀ w ∈ (bs.foldl (scanPrev chrom pos th) acc).new_buffer, w.keep = false := by
  intro bs
  induction bs with
  | nil => intro acc h; exact h
  | cons w bs ih =>
    intro acc h
    rw [List.foldl_cons]
    apply ih
    unfold scanPrev
    by_cases hc : w.chrom ≠ chrom
    · by_cases hk : w.keep <;> simp [hc, hk] <;> exact h
    · by_cases hs : pos - w.pos > th
      · by_cases hk : w.keep <;> simp [hc, hs, hk] <;> exact h
      · simp [hc, hs]
        intro x hx
        rcases hx with hx | hx
        · exact h x hx
        · simp [hx]

/-- After any processed record, all pending-buffer entries but the newest
have `keep = false`. -/
theorem stepRow_dropLast_false (p : Params) (st : FState) (r : Row) :
    ∀ w ∈ (stepRow p st r).buffer.dropLast, w.keep = false := by
  unfold stepRow
  intro w hw
  simp only [List.dropLast_concat] at hw
  exact foldl_scanPrev_newbuffer_false r.chrom r.pos (threshFor p r.chrom) st.buffer
    ⟨[], st.kept_count, st.removed_count, st.output, true⟩ (by simp) w hw

/-- The all-but-newest-discarded buffer shape is preserved by the whole
record loop. -/
theorem runLoop_dropLast_false (p : Params) :
    ∀ (rows : List Row) (st : FState), (∀ w ∈ st.buffer.dropLast, w.keep = false) →
    ∀ w ∈ (runLoop p st rows).buffer.dropLast, w.keep = false := by
  intro rows
  induction rows with
  | nil => intro st h; exact h
  | cons r rows ih =>
    intro st h
    exact ih (stepRow p st r) (stepRow_dropLast_false p st r)

/-! ## Lemmas about the dict model -/

theorem dictGet?_append (d e : List (String × Int)) (k : String) :
    dictGet? (d ++ e) k = (dictGet? d k).or (dictGet? e k) := by
  induction d with
  | nil => simp [dictGet?]
  | cons kv rest ih =>
    by_cases h : kv.1 = k
    · simp [dictGet?, h]
    · simp [dictGet?, h, ih]

theorem dictContains_true_get (d : List (String × Int)) (k : String)
    (h : dictContains d k = true) : ∃ v, dictGet? d k = some v := by
  induction d with
  | nil => simp [dictContains] at h
  | cons kv rest ih =>
    by_cases hk : kv.1 = k
    · exact ⟨kv.2, by simp [dictGet?, hk]⟩
    · simp [dictContains, hk] at h
      obtain ⟨v, hv⟩ := ih h
      exact ⟨v, by simp [dictGet?, hk, hv]⟩

theorem dictContains_false_get (d : List (String × Int)) (k : String)
    (h : dictContains d k = false) : dictGet? d k = none := by
  induction d with
  | nil => simp [dictGet?]
  | cons kv rest ih =>
    simp [dictContains] at h
    simp [dictGet?, h.1, ih h.2]

/-! ## The pass-through lemma: well-spaced streams flow through unchanged -/

theorem runLoop_cons (p : Params) (st : FState) (r : Row) (rows : List Row) :
    runLoop p st (r :: rows) = runLoop p (stepRow p st r) rows := rfl

/-- Streaming a remainder that is entirely beyond the threshold from the one
pending (kept) record, and pairwise beyond the threshold, flushes everything
as kept, in order. -/
theorem runFlush_pass_through (p : Params) :
    ∀ (rest : List Row) (v : Variant) (k rm : Nat) (out : List Row),
    v.keep = true →
    (∀ r ∈ rest, farRel p v.toRow r) →
    List.Pairwise (farRel p) rest →
    flushAll (runLoop p ⟨[v], k, rm, out⟩ rest) =
      ⟨[], k + 1 + rest.length, rm, out ++ v.toRow :: rest⟩ := by
  intro rest
  induction rest with
  | nil =>
    intro v k rm out hv _ _
    show flushAll ⟨[v], k, rm, out⟩ = _
    have h := flushAll_shape [] v k rm out (by simp)
    simpa [hv] using h
  | cons r rest ih =>
    intro v k rm out hv hfar hpw
    have hfr : farRel p v.toRow r := hfar r (List.mem_cons_self ..)
    have hstep : stepRow p ⟨[v], k, rm, out⟩ r =
        ⟨[⟨r.line, r.chrom, r.pos, true⟩], k + 1, rm, out ++ [v.toRow]⟩ := by
      unfold stepRow
      simp only [List.foldl_cons, List.foldl_nil]
      by_cases hc : v.chrom = r.chrom
      · have hs : threshFor p r.chrom < r.pos - v.pos := hfr hc
        rw [scanPrev_safe hc hs]
        simp [hv]
      · rw [scanPrev_mismatch hc]
        simp [hv]
    rw [runLoop_cons, hstep]
    obtain ⟨h1, h2⟩ := List.pairwise_cons.mp hpw
    have hrec := ih ⟨r.line, r.chrom, r.pos, true⟩ (k + 1) rm (out ++ [v.toRow]) rfl h1 h2
    rw [hrec]
    simp only [FState.mk.injEq, List.append_assoc, List.singleton_append,
      List.length_cons, true_and, and_true]
    constructor
    · omega
    · rfl

/-- The record-level engine is the identity (all kept, order preserved, no
removals) on streams whose same-chromosome records are pairwise farther
apart than the active threshold. -/
theorem processRows_pass_through (p : Params) (rows : List Row)
    (h : List.Pairwise (farRel p) rows) :
    processRows p rows = ⟨[], rows.length, 0, rows⟩ := by
  cases rows with
  | nil => rfl
  | cons r rest =>
    unfold processRows
    rw [runLoop_cons]
    have hstep : stepRow p initState r = ⟨[⟨r.line, r.chrom, r.pos, true⟩], 0, 0, []⟩ := rfl
    rw [hstep]
    obtain ⟨h1, h2⟩ := List.pairwise_cons.mp h
    have hrec := runFlush_pass_through p rest ⟨r.line, r.chrom, r.pos, true⟩ 0 0 [] rfl h1 h2
    rw [hrec]
    simp only [FState.mk.injEq, List.nil_append, List.length_cons, true_and, and_true]
    exact ⟨by omega, rfl⟩

/-! ## The filtered output is pairwise beyond threshold (key for idempotence) -/

/-- Appending the newest record to the emitted stream preserves pairwise
spacing, given the running-front invariant on the emitted stream. -/
theorem pairwise_out_snoc (p : Params) (out : List Row) (c : String) (v : Variant)
    (hvc : v.chrom = c)
    (hpw : List.Pairwise (farRel p) out)
    (hfar : ∀ o ∈ out, o.chrom = c → threshFor p c < v.pos - o.pos) :
    List.Pairwise (farRel p) (out ++ [v.toRow]) := by
  rw [List.pairwise_append]
  refine ⟨hpw, List.pairwise_singleton _ _, ?_⟩
  intro a ha b hb
  rw [List.mem_singleton] at hb
  subst hb
  intro hab
  have hac : a.chrom = c := by
    rw [show v.toRow.chrom = v.chrom from rfl, hvc] at hab
    exact hab
  have h := hfar a ha hac
  show threshFor p v.toRow.chrom < v.toRow.pos - a.pos
  rw [show v.toRow.chrom = v.chrom from rfl, show v.toRow.pos = v.pos from rfl, hvc]
  exact h

/-- Variant of `pairwise_out_snoc` for the conditional emission of a flush. -/
theorem pairwise_out_snoc_ite (p : Params) (out : List Row) (c : String) (v : Variant)
    (hvc : v.chrom = c)
    (hpw : List.Pairwise (farRel p) out)
    (hfar : ∀ o ∈ out, o.chrom = c → threshFor p c < v.pos - o.pos) :
    List.Pairwise (farRel p) (out ++ if v.keep then [v.toRow] else []) := by
  by_cases hk : v.keep
  · simp only [hk, if_true]
    exact pairwise_out_snoc p out c v hvc hpw hfar
  · simp only [hk]
    simpa using hpw

/-- Evaluation of `stepRow` on an explicit state, exposing the buffer walk. -/
theorem stepRow_eval (p : Params) (bl : List Variant) (k rm : Nat) (out : List Row) (r : Row) :
    stepRow p ⟨bl, k, rm, out⟩ r =
      ⟨(bl.foldl (scanPrev r.chrom r.pos (threshFor p r.chrom))
          ⟨[], k, rm, out, true⟩).new_buffer ++
         [⟨r.line, r.chrom, r.pos,
           (bl.foldl (scanPrev r.chrom r.pos (threshFor p r.chrom))
             ⟨[], k, rm, out, true⟩).curKeep⟩],
       (bl.foldl (scanPrev r.chrom r.pos (threshFor p r.chrom))
         ⟨[], k, rm, out, true⟩).kept_count,
       (bl.foldl (scanPrev r.chrom r.pos (threshFor p r.chrom))
         ⟨[], k, rm, out, true⟩).removed_count,
       (bl.foldl (scanPrev r.chrom r.pos (threshFor p r.chrom))
         ⟨[], k, rm, out, true⟩).output⟩ := rfl

/-- Core invariant induction: from a well-shaped state — single-chromosome
buffer below the front position, only the newest buffered record possibly
kept, the emitted stream pairwise beyond threshold, its current-chromosome
records beyond threshold from the front, finished chromosomes never
revisited — streaming a per-chromosome sorted, chromosome-contiguous
remainder leaves the final emitted stream pairwise beyond threshold. -/
theorem runFlush_output_far (p : Params) :
    ∀ (rest : List Row) (bs : List Variant) (v : Variant) (k rm : Nat)
      (out : List Row) (c : String) (fin : List String),
    v.chrom = c →
    (∀ w ∈ bs, w.chrom = c ∧ w.pos ≤ v.pos ∧ w.keep = false) →
    List.Pairwise (farRel p) out →
    (∀ o ∈ out, o.chrom = c → threshFor p c < v.pos - o.pos) →
    (∀ o ∈ out, o.chrom = c ∨ o.chrom ∈ fin) →
    c ∉ fin →
    groupedFrom c fin (rest.map Row.chrom) = true →
    List.Pairwise sortRel rest →
    (∀ r ∈ rest, r.chrom = c → v.pos ≤ r.pos) →
    List.Pairwise (farRel p)
      (flushAll (runLoop p ⟨bs ++ [v], k, rm, out⟩ rest)).output := by
  intro rest
  induction rest with
  | nil =>
    intro bs v k rm out c fin hvc hbs hpw hfar _ _ _ _ _
    show List.Pairwise (farRel p) (flushAll ⟨bs ++ [v], k, rm, out⟩).output
    rw [flushAll_shape bs v k rm out (fun w hw => (hbs w hw).2.2)]
    exact pairwise_out_snoc_ite p out c v hvc hpw hfar
  | cons r rest ih =>
    intro bs v k rm out c fin hvc hbs hpw hfar hout hcfin hgrp hsort hpos
    obtain ⟨hsort1, hsort2⟩ := List.pairwise_cons.mp hsort
    obtain ⟨nb, rmd, b, heq, hmem, hnil⟩ :=
      foldl_scanPrev_false r.chrom r.pos (threshFor p r.chrom) bs
        ⟨[], k, rm, out, true⟩ (fun w hw => (hbs w hw).2.2)
    rw [runLoop_cons]
    by_cases hc : r.chrom = c
    · -- the incoming record continues the current chromosome block
      have hvr : v.pos ≤ r.pos := hpos r (List.mem_cons_self ..) hc
      have hcc : v.chrom = r.chrom := by rw [hvc, hc]
      by_cases hs : threshFor p r.chrom < r.pos - v.pos
      · -- the front record (and with it everything buffered) is resolved
        have hnb : nb = [] := by
          cases hx : nb with
          | nil => rfl
          | cons x nb' =>
            exfalso
            obtain ⟨w0, hw0, _, _, hwd⟩ := hmem x (by rw [hx]; exact List.mem_cons_self ..)
            have hle := (hbs w0 hw0).2.1
            omega
        have hb : b = true := hnil hnb
        have hstate : stepRow p ⟨bs ++ [v], k, rm, out⟩ r =
            ⟨[⟨r.line, r.chrom, r.pos, true⟩], k + (if v.keep then 1 else 0),
             (rm + rmd) + (if v.keep then 0 else 1),
             out ++ if v.keep then [v.toRow] else []⟩ := by
          rw [stepRow_eval, List.foldl_append]
          simp only [List.foldl_cons, List.foldl_nil]
          rw [heq, scanPrev_safe hcc hs]
          subst hnb
          subst hb
          by_cases hk : v.keep <;> simp [hk]
        rw [hstate]
        refine ih [] ⟨r.line, r.chrom, r.pos, true⟩ _ _ _ c fin hc (by simp)
          ?_ ?_ ?_ hcfin ?_ hsort2 ?_
        · exact pairwise_out_snoc_ite p out c v hvc hpw hfar
        · intro o ho hoc
          rcases List.mem_append.mp ho with ho | ho
          · have h1 := hfar o ho hoc
            show threshFor p c < r.pos - o.pos
            omega
          · by_cases hk : v.keep
            · rw [if_pos hk, List.mem_singleton] at ho
              subst ho
              show threshFor p c < r.pos - v.toRow.pos
              rw [show v.toRow.pos = v.pos from rfl, ← hc]
              exact hs
            · rw [if_neg hk] at ho
              simp at ho
        · intro o ho
          rcases List.mem_append.mp ho with ho | ho
          · exact hout o ho
          · by_cases hk : v.keep
            · rw [if_pos hk, List.mem_singleton] at ho
              subst ho
              exact Or.inl (by rw [show v.toRow.chrom = v.chrom from rfl]; exact hvc)
            · rw [if_neg hk] at ho
              simp at ho
        · rw [show (r :: rest).map Row.chrom = r.chrom :: rest.map Row.chrom from rfl] at hgrp
          simpa [groupedFrom, hc] using hgrp
        · intro r' hr' hr'c
          show r.pos ≤ r'.pos
          exact hsort1 r' hr' (by rw [hc, hr'c])
      · -- the incoming record conflicts with the front record
        have hstate : stepRow p ⟨bs ++ [v], k, rm, out⟩ r =
            ⟨(nb ++ [{ v with keep := false }]) ++ [⟨r.line, r.chrom, r.pos, false⟩],
             k, rm + rmd, out⟩ := by
          rw [stepRow_eval, List.foldl_append]
          simp only [List.foldl_cons, List.foldl_nil]
          rw [heq, scanPrev_conflict hcc hs]
          simp
        rw [hstate]
        refine ih (nb ++ [{ v with keep := false }]) ⟨r.line, r.chrom, r.pos, false⟩
          k (rm + rmd) out c fin hc ?_ hpw ?_ hout hcfin ?_ hsort2 ?_
        · intro w hw
          rcases List.mem_append.mp hw with hw | hw
          · obtain ⟨w0, hw0, hwe, hwc, hwd⟩ := hmem w hw
            obtain ⟨hw0c, hw0p, _⟩ := hbs w0 hw0
            subst hwe
            refine ⟨hw0c, ?_, rfl⟩
            show w0.pos ≤ r.pos
            omega
          · rw [List.mem_singleton] at hw
            subst hw
            exact ⟨hvc, hvr, rfl⟩
        · intro o ho hoc
          have h1 := hfar o ho hoc
          show threshFor p c < r.pos - o.pos
          omega
        · rw [show (r :: rest).map Row.chrom = r.chrom :: rest.map Row.chrom from rfl] at hgrp
          simpa [groupedFrom, hc] using hgrp
        · intro r' hr' hr'c
          show r.pos ≤ r'.pos
          exact hsort1 r' hr' (by rw [hc, hr'c])
    · -- the incoming record opens a new chromosome block
      rw [show (r :: rest).map Row.chrom = r.chrom :: rest.map Row.chrom from rfl] at hgrp
      simp only [groupedFrom, if_neg hc] at hgrp
      have hrfin : r.chrom ∉ fin := by
        by_contra hin
        rw [if_pos hin] at hgrp
        exact Bool.noConfusion hgrp
      rw [if_neg hrfin] at hgrp
      have hnb : nb = [] := by
        cases hx : nb with
        | nil => rfl
        | cons x nb' =>
          exfalso
          obtain ⟨w0, hw0, _, hwc, _⟩ := hmem x (by rw [hx]; exact List.mem_cons_self ..)
          exact hc (by rw [← hwc]; exact (hbs w0 hw0).1)
      have hb : b = true := hnil hnb
      have hvm : v.chrom ≠ r.chrom := by
        rw [hvc]
        exact fun hh => hc hh.symm
      have hstate : stepRow p ⟨bs ++ [v], k, rm, out⟩ r =
          ⟨[⟨r.line, r.chrom, r.pos, true⟩], k + (if v.keep then 1 else 0),
           (rm + rmd) + (if v.keep then 0 else 1),
           out ++ if v.keep then [v.toRow] else []⟩ := by
        rw [stepRow_eval, List.foldl_append]
        simp only [List.foldl_cons, List.foldl_nil]
        rw [heq, scanPrev_mismatch hvm]
        subst hnb
        subst hb
        by_cases hk : v.keep <;> simp [hk]
      rw [hstate]
      refine ih [] ⟨r.line, r.chrom, r.pos, true⟩ _ _ _ r.chrom (c :: fin) rfl (by simp)
        ?_ ?_ ?_ ?_ hgrp hsort2 ?_
      · exact pairwise_out_snoc_ite p out c v hvc hpw hfar
      · intro o ho hoc
        exfalso
        have hclass : o.chrom = c ∨ o.chrom ∈ fin := by
          rcases List.mem_append.mp ho with ho | ho
          · exact hout o ho
          · by_cases hk : v.keep
            · rw [if_pos hk, List.mem_singleton] at ho
              subst ho
              exact Or.inl (by rw [show v.toRow.chrom = v.chrom from rfl]; exact hvc)
            · rw [if_neg hk] at ho
              simp at ho
        rcases hclass with h1 | h1
        · exact hc (by rw [← hoc, h1])
        · exact hrfin (by rw [← hoc]; exact h1)
      · intro o ho
        rcases List.mem_append.mp ho with ho | ho
        · rcases hout o ho with h1 | h1
          · exact Or.inr (by rw [h1]; exact List.mem_cons_self ..)
          · exact Or.inr (List.mem_cons_of_mem _ h1)
        · by_cases hk : v.keep
          · rw [if_pos hk, List.mem_singleton] at ho
            subst ho
            refine Or.inr ?_
            rw [show v.toRow.chrom = v.chrom from rfl, hvc]
            exact List.mem_cons_self ..
          · rw [if_neg hk] at ho
            simp at ho
      · intro hin
        rcases List.mem_cons.mp hin with h1 | h1
        · exact hc h1
        · exact hrfin h1
      · intro r' hr' hr'c
        show r.pos ≤ r'.pos
        exact hsort1 r' hr' hr'c.symm

/-! ## Lemmas about the line-level driver -/

theorem parsedRows_cons_header {l : String} (ls : List String)
    (h : startsWithHash l = true) : parsedRows (l :: ls) = parsedRows ls := by
  simp [parsedRows, List.filterMap_cons, h]

theorem parsedRows_cons_skip {l : String} (ls : List String)
    (h : ¬ startsWithHash l = true) (hp : parseDataLine l = .ok none) :
    parsedRows (l :: ls) = parsedRows ls := by
  simp [parsedRows, List.filterMap_cons, h, hp]

theorem parsedRows_cons_row {l : String} (ls : List String) (r : Row)
    (h : ¬ startsWithHash l = true) (hp : parseDataLine l = .ok (some r)) :
    parsedRows (l :: ls) = r :: parsedRows ls := by
  simp [parsedRows, List.filterMap_cons, h, hp]

/-- Conservation along the line loop: the tally kept + removed + pending
grows by one per successfully parsed data record. -/
theorem runLines_measure (p : Params) :
    ∀ (lines : List String) (st st' : FState), runLines p st lines = .ok st' →
    st'.kept_count + st'.removed_count + st'.buffer.length =
      st.kept_count + st.removed_count + st.buffer.length + (parsedRows lines).length := by
  intro lines
  induction lines with
  | nil =>
    intro st st' h
    simp only [runLines, Except.ok.injEq] at h
    subst h
    simp [parsedRows]
  | cons l ls ih =>
    intro st st' h
    simp only [runLines] at h
    by_cases hh : startsWithHash l
    · rw [if_pos hh] at h
      rw [parsedRows_cons_header ls hh]
      exact ih st st' h
    · rw [if_neg hh] at h
      cases hp : parseDataLine l with
      | error e =>
        rw [hp] at h
        exact absurd h (by simp)
      | ok o =>
        rw [hp] at h
        cases o with
        | none =>
          rw [parsedRows_cons_skip ls hh hp]
          exact ih st st' h
        | some r =>
          rw [parsedRows_cons_row ls r hh hp]
          have h1 := ih (stepRow p st r) st' h
          have h2 := stepRow_measure p st r
          simp only [List.length_cons]
          omega

/-- Merging the VCF-header table into the FAI table realises first-source
priority: lookups read the FAI entry when present, the header entry
otherwise. -/
theorem get_combined_lookup (vcfHdr : List (String × Int)) :
    ∀ (fai : List (String × Int)) (c : String),
    dictGet? (get_combined_chrom_lengths fai vcfHdr) c =
      (dictGet? fai c).or (dictGet? vcfHdr c) := by
  induction vcfHdr with
  | nil =>
    intro fai c
    simp [get_combined_chrom_lengths, dictGet?]
  | cons kv tl ih =>
    intro fai c
    show dictGet? (List.foldl _ (if dictContains fai kv.1 then fai else fai ++ [kv]) tl) c = _
    by_cases h : dictContains fai kv.1 = true
    · rw [if_pos h]
      have htail := ih fai c
      rw [show List.foldl (fun d kv => if dictContains d kv.1 then d else d ++ [kv]) fai tl =
        get_combined_chrom_lengths fai tl from rfl, htail]
      by_cases hk : kv.1 = c
      · obtain ⟨v, hv⟩ := dictContains_true_get fai kv.1 h
        rw [hk] at hv
        rw [hv]
        simp [dictGet?, hk]
      · simp [dictGet?, hk]
    · rw [if_neg h]
      have htail := ih (fai ++ [kv]) c
      rw [show List.foldl (fun d kv => if dictContains d kv.1 then d else d ++ [kv])
        (fai ++ [kv]) tl = get_combined_chrom_lengths (fai ++ [kv]) tl from rfl, htail]
      rw [dictGet?_append]
      by_cases hk : kv.1 = c
      · have h0 : dictGet? fai c = none := by
          rw [← hk]
          exact dictContains_false_get fai kv.1 (by simpa using h)
        simp [h0, dictGet?, hk]
      · simp [dictGet?, hk]

/-! ## Claim theorems -/

/-- Claim C1 (code_bug evidence): in the filtering pass a data line with
fewer than two tab-separated fields does NOT merely skip that record — the
uncaught `IndexError` from `fields[1]` aborts the whole run (first conjunct),
while a non-integer position field is indeed skipped silently, the run
continuing with the next line (second conjunct).  The claim (and the spec)
say both malformations only skip the single record. -/
theorem claim_C1_short_line_aborts :
    process_vcf ⟨"A", 10, 10⟩ ["A\t5", "A"] = .error .indexError ∧
    process_vcf ⟨"A", 10, 10⟩ ["A\t5", "A\tx", "A\t50"] =
      .ok ⟨[], 2, 0, [⟨"A\t5", "A", 5⟩, ⟨"A\t50", "A", 50⟩]⟩ :=
  ⟨rfl, rfl⟩

/-- Claim C5: three same-chromosome records at positions 10, 15, 100 with
active threshold 20 — the first two conflict (distance 5) and are removed,
the third (distance 85) is kept; the run ends with kept 1, removed 2. -/
theorem claim_C5_chain :
    processRows ⟨"A", 20, 20⟩ [⟨"A\t10", "A", 10⟩, ⟨"A\t15", "A", 15⟩, ⟨"A\t100", "A", 100⟩] =
      ⟨[], 1, 2, [⟨"A\t100", "A", 100⟩]⟩ :=
  rfl

/-- Claim C4: for a pending record `prev` and an incoming same-chromosome
record, a distance exactly equal to the active threshold is a conflict —
both records are marked not-kept and `prev` stays in the buffer, counters
untouched — while `prev` is resolved (flushed by the emit-or-count rule) only
when the distance is strictly greater than the threshold. -/
theorem claim_C4_boundary (p : Params) (k rm : Nat) (out : List Row)
    (prev : Variant) (r : Row) (hc : prev.chrom = r.chrom) :
    (r.pos - prev.pos = threshFor p r.chrom →
      stepRow p ⟨[prev], k, rm, out⟩ r =
        ⟨[⟨prev.line, prev.chrom, prev.pos, false⟩, ⟨r.line, r.chrom, r.pos, false⟩],
         k, rm, out⟩) ∧
    (threshFor p r.chrom < r.pos - prev.pos →
      stepRow p ⟨[prev], k, rm, out⟩ r =
        ⟨[⟨r.line, r.chrom, r.pos, true⟩],
         k + (if prev.keep then 1 else 0), rm + (if prev.keep then 0 else 1),
         out ++ if prev.keep then [prev.toRow] else []⟩) := by
  constructor
  · intro h
    have hns : ¬ threshFor p r.chrom < r.pos - prev.pos := by omega
    rw [stepRow_eval]
    simp only [List.foldl_cons, List.foldl_nil]
    rw [scanPrev_conflict hc hns]
    rfl
  · intro h
    rw [stepRow_eval]
    simp only [List.foldl_cons, List.foldl_nil]
    rw [scanPrev_safe hc h]
    by_cases hk : prev.keep <;> simp [hk]

/-- Claim C4 witness: threshold 20, pending record at 10; an incoming record
at 30 (distance exactly 20) is a conflict and leaves both buffered and
not-kept; an incoming record at 31 (distance 21) resolves the pending record
as kept. -/
theorem claim_C4_witness :
    stepRow ⟨"A", 20, 20⟩ ⟨[⟨"A\t10", "A", 10, true⟩], 0, 0, []⟩ ⟨"A\t30", "A", 30⟩ =
      ⟨[⟨"A\t10", "A", 10, false⟩, ⟨"A\t30", "A", 30, false⟩], 0, 0, []⟩ ∧
    stepRow ⟨"A", 20, 20⟩ ⟨[⟨"A\t10", "A", 10, true⟩], 0, 0, []⟩ ⟨"A\t31", "A", 31⟩ =
      ⟨[⟨"A\t31", "A", 31, true⟩], 1, 0, [⟨"A\t10", "A", 10⟩]⟩ := by
  constructor
  · exact (claim_C4_boundary ⟨"A", 20, 20⟩ 0 0 [] ⟨"A\t10", "A", 10, true⟩
      ⟨"A\t30", "A", 30⟩ rfl).1 (by decide)
  · have h := (claim_C4_boundary ⟨"A", 20, 20⟩ 0 0 [] ⟨"A\t10", "A", 10, true⟩
      ⟨"A\t31", "A", 31⟩ rfl).2 (by decide)
    simpa using h

/-- Claim C10: after any number of processed records, every pending-buffer
entry except the most recently appended one has its keep flag false. -/
theorem claim_C10_buffer_keep_invariant (p : Params) (rows : List Row) :
    ∀ w ∈ (runLoop p initState rows).buffer.dropLast, w.keep = false :=
  runLoop_dropLast_false p rows initState (by simp [initState])

/-- Claim C8: the combined Chromosome Length Table maps each name to the FAI
length when the index file defines one, otherwise to the VCF-header contig
length when the header defines one, and otherwise leaves it absent. -/
theorem claim_C8_merge_priority (fai vcfHdr : List (String × Int)) (c : String) :
    dictGet? (get_combined_chrom_lengths fai vcfHdr) c =
      (dictGet? fai c).or (dictGet? vcfHdr c) :=
  get_combined_lookup vcfHdr fai c

/-- Claim C9: conservation of records — after any prefix of the line loop,
parsed records = kept + removed + pending; after the final flush,
kept + removed = all parsed records. -/
theorem claim_C9_conservation (p : Params) :
    (∀ (lines : List String) (st : FState), runLines p initState lines = .ok st →
      st.kept_count + st.removed_count + st.buffer.length = (parsedRows lines).length) ∧
    (∀ (lines : List String) (st : FState), process_vcf p lines = .ok st →
      st.kept_count + st.removed_count = (parsedRows lines).length) := by
  have base : ∀ (lines : List String) (st : FState), runLines p initState lines = .ok st →
      st.kept_count + st.removed_count + st.buffer.length = (parsedRows lines).length := by
    intro lines st h
    have h1 := runLines_measure p lines initState st h
    simpa [initState] using h1
  refine ⟨base, ?_⟩
  intro lines st h
  unfold process_vcf at h
  cases hr : runLines p initState lines with
  | error e =>
    rw [hr] at h
    exact absurd h (by simp [Except.map])
  | ok st0 =>
    rw [hr] at h
    simp only [Except.map, Except.ok.injEq] at h
    subst h
    have h1 := base lines st0 hr
    have h2 := (flushAll_measure st0).1
    omega

/-- Claim C9 witness: a four-line stream (header, a good record, a
`ValueError` record, a good record) satisfies both conservation equations. -/
theorem claim_C9_witness :
    (1 : Nat) + 0 + 1 = (parsedRows ["##h", "A\t5", "junk\tx", "A\t50"]).length ∧
    (2 : Nat) + 0 = (parsedRows ["##h", "A\t5", "junk\tx", "A\t50"]).length := by
  constructor
  · have h := (claim_C9_conservation ⟨"A", 10, 10⟩).1 ["##h", "A\t5", "junk\tx", "A\t50"]
      ⟨[⟨"A\t50", "A", 50, true⟩], 1, 0, [⟨"A\t5", "A", 5⟩]⟩ rfl
    simpa using h
  · have h := (claim_C9_conservation ⟨"A", 10, 10⟩).2 ["##h", "A\t5", "junk\tx", "A\t50"]
      ⟨[], 2, 0, [⟨"A\t5", "A", 5⟩, ⟨"A\t50", "A", 50⟩]⟩ rfl
    simpa using h

/-- Claim C3: on an input in non-decreasing per-chromosome position order
whose same-chromosome records are pairwise farther apart than the applicable
threshold, the engine emits every data record verbatim, in input order, with
no removals. -/
theorem claim_C3_pass_through (p : Params) (rows : List Row)
    (hsort : List.Pairwise sortRel rows)
    (hfar : List.Pairwise (farRel p) rows) :
    processRows p rows = ⟨[], rows.length, 0, rows⟩ :=
  processRows_pass_through p rows hfar

/-- Claim C3 witness: three well-spaced records pass through unchanged. -/
theorem claim_C3_witness :
    List.Pairwise sortRel [⟨"A\t1", "A", 1⟩, ⟨"A\t50", "A", 50⟩, ⟨"B\t2", "B", 2⟩] ∧
    List.Pairwise (farRel ⟨"A", 10, 10⟩)
      [⟨"A\t1", "A", 1⟩, ⟨"A\t50", "A", 50⟩, ⟨"B\t2", "B", 2⟩] ∧
    processRows ⟨"A", 10, 10⟩ [⟨"A\t1", "A", 1⟩, ⟨"A\t50", "A", 50⟩, ⟨"B\t2", "B", 2⟩] =
      ⟨[], 3, 0, [⟨"A\t1", "A", 1⟩, ⟨"A\t50", "A", 50⟩, ⟨"B\t2", "B", 2⟩]⟩ :=
  ⟨by decide, by decide,
   claim_C3_pass_through ⟨"A", 10, 10⟩
     [⟨"A\t1", "A", 1⟩, ⟨"A\t50", "A", 50⟩, ⟨"B\t2", "B", 2⟩] (by decide) (by decide)⟩

/-- Claim C2 counterexample: the interleaved stream A@0, B@0, B@5, A@5 (both
thresholds 10) is in non-decreasing per-chromosome position order, yet the
engine's first run keeps exactly A@0 and A@5, and a second run on that
filtered output removes both of them (2 further removals, empty output) —
so idempotence fails for inputs whose chromosomes interleave. -/
theorem claim_C2_counterexample :
    List.Pairwise sortRel
      [⟨"A\t0", "A", 0⟩, ⟨"B\t0", "B", 0⟩, ⟨"B\t5", "B", 5⟩, ⟨"A\t5", "A", 5⟩] ∧
    (processRows ⟨"S", 10, 10⟩
      [⟨"A\t0", "A", 0⟩, ⟨"B\t0", "B", 0⟩, ⟨"B\t5", "B", 5⟩, ⟨"A\t5", "A", 5⟩]).output =
      [⟨"A\t0", "A", 0⟩, ⟨"A\t5", "A", 5⟩] ∧
    (processRows ⟨"S", 10, 10⟩ [⟨"A\t0", "A", 0⟩, ⟨"A\t5", "A", 5⟩]).output = [] ∧
    (processRows ⟨"S", 10, 10⟩ [⟨"A\t0", "A", 0⟩, ⟨"A\t5", "A", 5⟩]).removed_count = 2 :=
  ⟨by decide, rfl, rfl, rfl⟩

/-- Claim C2 (amended): for inputs in non-decreasing per-chromosome position
order in which, additionally, each chromosome's records form one contiguous
block of the stream, running the engine on its own filtered output (same
thresholds) keeps every record: it emits exactly that output again with zero
removals. -/
theorem claim_C2_amended_idempotent (p : Params) (rows : List Row)
    (hsort : List.Pairwise sortRel rows)
    (hgrp : grouped (rows.map Row.chrom) = true) :
    processRows p (processRows p rows).output =
      ⟨[], (processRows p rows).output.length, 0, (processRows p rows).output⟩ := by
  apply processRows_pass_through
  cases rows with
  | nil => exact List.Pairwise.nil
  | cons r rest =>
    show List.Pairwise (farRel p)
      (flushAll (runLoop p initState (r :: rest))).output
    rw [runLoop_cons]
    rw [show stepRow p initState r = ⟨[⟨r.line, r.chrom, r.pos, true⟩], 0, 0, []⟩ from rfl]
    obtain ⟨hs1, hs2⟩ := List.pairwise_cons.mp hsort
    exact runFlush_output_far p rest [] ⟨r.line, r.chrom, r.pos, true⟩ 0 0 [] r.chrom []
      rfl (by simp) List.Pairwise.nil (by simp) (by simp) (by simp) hgrp hs2
      (fun r' hr' hc => hs1 r' hr' hc.symm)

/-- Claim C2 (amended) witness: a sorted, chromosome-contiguous stream whose
first chromosome's two records conflict; the second run on the filtered
output changes nothing. -/
theorem claim_C2_amended_witness :
    List.Pairwise sortRel [⟨"A\t0", "A", 0⟩, ⟨"A\t5", "A", 5⟩, ⟨"B\t3", "B", 3⟩] ∧
    grouped ([⟨"A\t0", "A", 0⟩, ⟨"A\t5", "A", 5⟩,
      ⟨"B\t3", "B", 3⟩].map Row.chrom) = true ∧
    processRows ⟨"A", 10, 10⟩
        (processRows ⟨"A", 10, 10⟩
          [⟨"A\t0", "A", 0⟩, ⟨"A\t5", "A", 5⟩, ⟨"B\t3", "B", 3⟩]).output =
      ⟨[], (processRows ⟨"A", 10, 10⟩
             [⟨"A\t0", "A", 0⟩, ⟨"A\t5", "A", 5⟩, ⟨"B\t3", "B", 3⟩]).output.length, 0,
       (processRows ⟨"A", 10, 10⟩
         [⟨"A\t0", "A", 0⟩, ⟨"A\t5", "A", 5⟩, ⟨"B\t3", "B", 3⟩]).output⟩ :=
  ⟨by decide, by decide,
   claim_C2_amended_idempotent ⟨"A", 10, 10⟩
     [⟨"A\t0", "A", 0⟩, ⟨"A\t5", "A", 5⟩, ⟨"B\t3", "B", 3⟩] (by decide) (by decide)⟩

/-- Claim C6: for any density, probability in (0,1) and integer floor, the
threshold calculator returns the floor directly when the density is at or
below the 1e-9 epsilon, and `max(floor(-ln(1-p)/d), m)` otherwise — i.e. the
code (whose `int()` truncates toward zero) agrees with the spec's floor-based
description. -/
theorem claim_C6_threshold_refines_spec (d p : ℝ) (m : ℤ) (h0 : 0 < p) (h1 : p < 1) :
    calculate_dist_threshold d p m = threshold_spec d p m := by
  unfold calculate_dist_threshold threshold_spec
  by_cases hd : d ≤ 1e-9
  · rw [if_pos hd, if_pos hd]
  · rw [if_neg hd, if_neg hd]
    have hdpos : (0 : ℝ) < d := lt_trans (by norm_num) (lt_of_not_le hd)
    have hlog : Real.log (1 - p) < 0 := Real.log_neg (by linarith) (by linarith)
    have hx : 0 ≤ -Real.log (1 - p) / d := div_nonneg (by linarith) hdpos.le
    unfold pyTrunc
    rw [if_pos hx]

/-- Claim C6 witness: at density 1, probability 1/2, floor 5 the two
descriptions agree. -/
theorem claim_C6_witness :
    (0 : ℝ) < 1 / 2 ∧ (1 / 2 : ℝ) < 1 ∧
    calculate_dist_threshold 1 (1 / 2) 5 = threshold_spec 1 (1 / 2) 5 :=
  ⟨by norm_num, by norm_num,
   claim_C6_threshold_refines_spec 1 (1 / 2) 5 (by norm_num) (by norm_num)⟩

/-- Claim C7 counterexample: with probability `1 - exp(-1)` and floor 0, the
threshold at density 1e-9 (which is > 0 and falls in the epsilon branch)
is 0, while at the larger density 1/10 it is 10 — the calculator is NOT
monotonically non-increasing over all densities d > 0; the epsilon clamp
breaks monotonicity at its boundary. -/
theorem claim_C7_counterexample :
    (0 : ℝ) < 1e-9 ∧ (1e-9 : ℝ) < 1 / 10 ∧
    0 < 1 - Real.exp (-1) ∧ 1 - Real.exp (-1) < 1 ∧
    calculate_dist_threshold 1e-9 (1 - Real.exp (-1)) 0 = 0 ∧
    calculate_dist_threshold (1 / 10) (1 - Real.exp (-1)) 0 = 10 := by
  have hexp1 : Real.exp (-1) < 1 := by
    rw [show (1 : ℝ) = Real.exp 0 from (Real.exp_zero).symm]
    exact Real.exp_lt_exp.mpr (by norm_num)
  refine ⟨by norm_num, by norm_num, by linarith, by linarith [Real.exp_pos (-1)], ?_, ?_⟩
  · unfold calculate_dist_threshold
    rw [if_pos (le_refl _)]
  · unfold calculate_dist_threshold
    rw [if_neg (by norm_num : ¬ (1 / 10 : ℝ) ≤ 1e-9)]
    rw [show (1 : ℝ) - (1 - Real.exp (-1)) = Real.exp (-1) from by ring, Real.log_exp]
    rw [show -(-1 : ℝ) / (1 / 10) = 10 from by norm_num]
    unfold pyTrunc
    rw [if_pos (by norm_num : (0 : ℝ) ≤ 10)]
    rw [show ((10 : ℝ) = ((10 : ℤ) : ℝ)) from by norm_num, Int.floor_intCast]
    rfl

/-- Claim C7 (amended): for probabilities in (0,1) the threshold calculator
is monotonically non-increasing in the density on densities strictly above
the 1e-9 epsilon (not on all of d > 0, see the counterexample), and for every
density it is monotonically non-decreasing in the configured minimum and
always at least that minimum. -/
theorem claim_C7_amended_shape (p : ℝ) (m m1 m2 : ℤ) (d d1 d2 : ℝ)
    (h0 : 0 < p) (h1 : p < 1) :
    ((1e-9 : ℝ) < d1 → d1 ≤ d2 →
      calculate_dist_threshold d2 p m ≤ calculate_dist_threshold d1 p m) ∧
    (m1 ≤ m2 → calculate_dist_threshold d p m1 ≤ calculate_dist_threshold d p m2) ∧
    m ≤ calculate_dist_threshold d p m := by
  have hc : 0 ≤ -Real.log (1 - p) := by
    have := Real.log_neg (by linarith : (0 : ℝ) < 1 - p) (by linarith : (1 : ℝ) - p < 1)
    linarith
  refine ⟨?_, ?_, ?_⟩
  · intro hd1 hdd
    have hd2 : (1e-9 : ℝ) < d2 := lt_of_lt_of_le hd1 hdd
    have h1pos : (0 : ℝ) < d1 := lt_trans (by norm_num) hd1
    have h2pos : (0 : ℝ) < d2 := lt_trans (by norm_num) hd2
    unfold calculate_dist_threshold
    rw [if_neg (not_le.mpr hd1), if_neg (not_le.mpr hd2)]
    have hdev : -Real.log (1 - p) / d2 ≤ -Real.log (1 - p) / d1 := by
      gcongr
    have hq1 : 0 ≤ -Real.log (1 - p) / d1 := div_nonneg hc h1pos.le
    have hq2 : 0 ≤ -Real.log (1 - p) / d2 := div_nonneg hc h2pos.le
    unfold pyTrunc
    rw [if_pos hq1, if_pos hq2]
    exact max_le_max (Int.floor_le_floor hdev) le_rfl
  · intro hm
    unfold calculate_dist_threshold
    by_cases hd : d ≤ 1e-9
    · rw [if_pos hd, if_pos hd]
      exact hm
    · rw [if_neg hd, if_neg hd]
      exact max_le_max le_rfl hm
  · unfold calculate_dist_threshold
    by_cases hd : d ≤ 1e-9
    · rw [if_pos hd]
    · rw [if_neg hd]
      exact le_max_right _ _

/-- Claim C7 (amended) witness: concrete instances of all three shape
properties at probability 1/2. -/
theorem claim_C7_witness :
    ((1e-9 : ℝ) < 1 ∧ (1 : ℝ) ≤ 2 ∧
      calculate_dist_threshold 2 (1 / 2) 7 ≤ calculate_dist_threshold 1 (1 / 2) 7) ∧
    ((3 : ℤ) ≤ 7 ∧
      calculate_dist_threshold 1 (1 / 2) 3 ≤ calculate_dist_threshold 1 (1 / 2) 7) ∧
    (7 : ℤ) ≤ calculate_dist_threshold 1 (1 / 2) 7 :=
  ⟨⟨by norm_num, by norm_num,
     (claim_C7_amended_shape (1 / 2) 7 3 7 1 1 2 (by norm_num) (by norm_num)).1
       (by norm_num) (by norm_num)⟩,
   ⟨by norm_num,
     (claim_C7_amended_shape (1 / 2) 7 3 7 1 1 2 (by norm_num) (by norm_num)).2.1
       (by norm_num)⟩,
   (claim_C7_amended_shape (1 / 2) 7 3 7 1 1 2 (by norm_num) (by norm_num)).2.2⟩

/-- Claim C10 witness: after two conflicting records A@0, A@5 (threshold 10)
the buffer holds both with the older one first; that non-newest entry indeed
has keep = false. -/
theorem claim_C10_witness :
    (⟨"A\t0", "A", 0, false⟩ : Variant) ∈
      (runLoop ⟨"A", 10, 10⟩ initState
        [⟨"A\t0", "A", 0⟩, ⟨"A\t5", "A", 5⟩]).buffer.dropLast ∧
    (⟨"A\t0", "A", 0, false⟩ : Variant).keep = false :=
  ⟨by decide,
   claim_C10_buffer_keep_invariant ⟨"A", 10, 10⟩
     [⟨"A\t0", "A", 0⟩, ⟨"A\t5", "A", 5⟩] ⟨"A\t0", "A", 0, false⟩ (by decide)⟩
